import Mathlib

/-!
Verification of the ladder-network congestion-game analyzer (`temp18.py`).

The development shallowly embeds the three core functions of the source:
`calculate_rungs`, `simulate_network` and the per-`(n,k)` coalition search of
`analyze_bottom_coalitions`.  The Python builtin `range(a, b)` is `pyRange a b`,
`defaultdict(int)` counters are total functions `ℕ → ℕ` defaulting to `0`,
and the `routes` / `individual_costs` dictionaries are association lists in
which a later assignment shadows an earlier one (`List.lookup` finds the most
recent entry, matching dict overwrite semantics).
-/

namespace Temp18

/-- Model of Python `range(a, b)`: the list `[a, a+1, ..., b-1]` (empty when `b ≤ a`). -/
def pyRange (a b : ℕ) : List ℕ := List.range' a (b - a)

/-- One iteration of the loop of `calculate_rungs`:
`rungs.append(rungs[-1] + 2*(n - i) + 1)`. -/
def calcStep (n : ℕ) (rungs : List ℕ) (i : ℕ) : List ℕ :=
  rungs ++ [rungs.getLastD 0 + 2 * (n - i) + 1]

/-- Model of `calculate_rungs(n)`: starts from `[1]` and for `i` in `range(1, n)` appends
`rungs[-1] + 2*(n - i) + 1`. -/
def calculate_rungs (n : ℕ) : List ℕ :=
  (pyRange 1 n).foldl (calcStep n) [1]

/-- Closed form of the loop of `calculate_rungs`: value of `rungs[i]`. -/
def rungVal (n : ℕ) : ℕ → ℕ
  | 0 => 1
  | i + 1 => rungVal n i + 2 * (n - (i + 1)) + 1

/-- The mutable state of one `simulate_network` run: the two congestion-counter
dictionaries (`defaultdict(int)`) and the `routes` dictionary. -/
structure SimState where
  left : ℕ → ℕ
  right : ℕ → ℕ
  routes : List (ℕ × ℕ)

/-- State at the start of a run: both rails all-zero, no routes assigned. -/
def initState : SimState := ⟨fun _ => 0, fun _ => 0, []⟩

/-- Model of `for seg in range(1, player): f[seg] += 1` as a function update. -/
def bump (f : ℕ → ℕ) (player : ℕ) : ℕ → ℕ :=
  fun seg => if 1 ≤ seg ∧ seg < player then f seg + 1 else f seg

/-- One iteration of the coalition loop of `simulate_network`: a deviating
member routes to rung 1 and increments both rails on segments `1..player-1`;
a staying member routes to their own rank. -/
def coalitionStep (st : SimState) (pc : ℕ × Bool) : SimState :=
  if pc.2 then ⟨bump st.left pc.1, bump st.right pc.1, (pc.1, 1) :: st.routes⟩
  else ⟨st.left, st.right, (pc.1, pc.1) :: st.routes⟩

/-- The quantity `deviation_cost` as computed for a selfish player:
`sum(left[seg]+1 for seg in range(1, player)) + sum(right[seg]+1 for ...) + rungs[0]`. -/
def devCost (st : SimState) (rungs : List ℕ) (player : ℕ) : ℕ :=
  ((pyRange 1 player).map (fun s => st.left s + 1)).sum +
    ((pyRange 1 player).map (fun s => st.right s + 1)).sum + rungs.getD 0 0

/-- One iteration of the selfish loop: coalition members are skipped; a
non-member deviates exactly when `deviation_cost < original_cost`. -/
def selfishStep (coalition : List ℕ) (rungs : List ℕ) (st : SimState) (player : ℕ) :
    SimState :=
  if player ∈ coalition then st
  else if devCost st rungs player < rungs.getD (player - 1) 0 then
    ⟨bump st.left player, bump st.right player, (player, 1) :: st.routes⟩
  else ⟨st.left, st.right, (player, player) :: st.routes⟩

/-- The state after both routing phases of `simulate_network`: coalition
members first (in coalition order, paired with their choices), then all
players `1..n` in ascending rank order with members skipped. -/
def finalState (n : ℕ) (coalition : List ℕ) (choices : List Bool) (rungs : List ℕ) :
    SimState :=
  (pyRange 1 (n + 1)).foldl (selfishStep coalition rungs)
    ((coalition.zip choices).foldl coalitionStep initState)

/-- The cost tally for one player: own-rank routes pay `rungs[player-1]`;
any other route pays the final rail sums over `range(route, player)` plus
`rungs[route-1]`.  A player absent from `routes` (impossible for players
`1..n`, see the coverage theorem) is given 0 where Python would raise. -/
def individualCost (st : SimState) (rungs : List ℕ) (player : ℕ) : ℕ :=
  match st.routes.lookup player with
  | some rung =>
      if rung = player then rungs.getD (player - 1) 0
      else ((pyRange rung player).map st.left).sum +
        ((pyRange rung player).map st.right).sum + rungs.getD (rung - 1) 0
  | none => 0

/-- Model of `simulate_network(n, coalition, choices, rungs)`:
returns `(system_cost, coalition_cost, routes, individual_costs)`. -/
def simulate_network (n : ℕ) (coalition : List ℕ) (choices : List Bool)
    (rungs : List ℕ) : ℕ × ℕ × List (ℕ × ℕ) × List (ℕ × ℕ) :=
  let st := finalState n coalition choices rungs
  let individual := (pyRange 1 (n + 1)).map (fun p => (p, individualCost st rungs p))
  ((individual.map Prod.snd).sum,
    (coalition.map (fun p => individualCost st rungs p)).sum,
    st.routes, individual)

/-- The best record tracked by the search loop of `analyze_bottom_coalitions`. -/
structure SearchRecord where
  systemCost : ℕ
  coalitionCost : ℕ
  routes : List (ℕ × ℕ)
  choices : List Bool
deriving DecidableEq

/-- Model of `itertools.product([True, False], repeat=k)` in its enumeration order
(first coordinate varies slowest, `True` before `False`). -/
def allChoices : ℕ → List (List Bool)
  | 0 => [[]]
  | k + 1 => (allChoices k).map (List.cons true) ++ (allChoices k).map (List.cons false)

/-- The candidate record built from one simulation run. -/
def mkRec (n : ℕ) (coalition : List ℕ) (rungs : List ℕ) (ch : List Bool) :
    SearchRecord :=
  let r := simulate_network n coalition ch rungs
  ⟨r.1, r.2.1, r.2.2.1, ch⟩

/-- One iteration of the strategy loop: the incumbent `none` plays the
float-infinity initialisation (any first candidate replaces it); otherwise a
candidate replaces the incumbent iff `coal_cost < min_coalition_cost` or
`coal_cost == min_coalition_cost and sys_cost < best_system_cost`. -/
def searchStep (n : ℕ) (coalition : List ℕ) (rungs : List ℕ)
    (best : Option SearchRecord) (ch : List Bool) : Option SearchRecord :=
  let cand := mkRec n coalition rungs ch
  match best with
  | none => some cand
  | some b =>
      if cand.coalitionCost < b.coalitionCost ∨
          (cand.coalitionCost = b.coalitionCost ∧ cand.systemCost < b.systemCost) then
        some cand
      else some b

/-- Model of `list(range(n - k + 1, n + 1))`: the bottom-`k` coalition. -/
def coalitionOf (n k : ℕ) : List ℕ := pyRange (n - k + 1) (n + 1)

/-- The inner search of `analyze_bottom_coalitions` for one `(n, k)` pair. -/
def searchBest (n k : ℕ) (rungs : List ℕ) : Option SearchRecord :=
  (allChoices k).foldl (searchStep n (coalitionOf n k) rungs) none

/-- Model of `analyze_bottom_coalitions(n_min, n_max)`: the record stored for each
`(n, k)` with `n` in `range(n_min, n_max+1)` and `k` in `range(2, n)`. -/
def analyze_bottom_coalitions (nMin nMax : ℕ) : List ((ℕ × ℕ) × Option SearchRecord) :=
  (pyRange nMin (nMax + 1)).flatMap fun n =>
    (pyRange 2 n).map fun k => ((n, k), searchBest n k (calculate_rungs n))

/-- Strict lexicographic order on `(coalition_cost, system_cost)` pairs. -/
def lexLt (a b : ℕ × ℕ) : Prop := a.1 < b.1 ∨ (a.1 = b.1 ∧ a.2 < b.2)

instance (a b : ℕ × ℕ) : Decidable (lexLt a b) := by unfold lexLt; infer_instance

/-- The `(coalition_cost, system_cost)` pair of one candidate strategy. -/
def costPair (n : ℕ) (coalition : List ℕ) (rungs : List ℕ) (ch : List Bool) : ℕ × ℕ :=
  ((simulate_network n coalition ch rungs).2.1, (simulate_network n coalition ch rungs).1)

/-! ### Basic facts about `pyRange` -/

lemma mem_pyRange {p a b : ℕ} : p ∈ pyRange a b ↔ a ≤ p ∧ p < b := by
  unfold pyRange
  rw [List.mem_range'_1]
  omega

lemma pyRange_length (a b : ℕ) : (pyRange a b).length = b - a := by
  simp [pyRange]

lemma pyRange_nodup (a b : ℕ) : (pyRange a b).Nodup := by
  simp [pyRange, List.nodup_range']

lemma pyRange_cons {a b : ℕ} (h : a < b) : pyRange a b = a :: pyRange (a + 1) b := by
  unfold pyRange
  have hb : b - a = (b - (a + 1)) + 1 := by omega
  rw [hb, List.range'_succ]

/-! ### C7: the rung-latency generator -/

lemma rungVal_strictMono (n : ℕ) : StrictMono (rungVal n) := by
  apply strictMono_nat_of_lt_succ
  intro i
  simp only [rungVal]
  omega

lemma calculate_rungs_eq {n : ℕ} (h : 1 ≤ n) :
    calculate_rungs n = (List.range n).map (rungVal n) := by
  have loop : ∀ (t a : ℕ), 1 ≤ a →
      (List.range' a t).foldl (calcStep n)
        ((List.range a).map (rungVal n)) = (List.range (a + t)).map (rungVal n) := by
    intro t
    induction t with
    | zero => intro a _; simp
    | succ t ih =>
        intro a ha
        rw [List.range'_succ, List.foldl_cons]
        have hstep : calcStep n ((List.range a).map (rungVal n)) a =
            (List.range (a + 1)).map (rungVal n) := by
          obtain ⟨m, rfl⟩ : ∃ m, a = m + 1 := ⟨a - 1, by omega⟩
          unfold calcStep
          rw [List.range_succ (n := m + 1), List.map_append]
          have hlast : ((List.range (m + 1)).map (rungVal n)).getLastD 0 =
              rungVal n m := by
            rw [List.range_succ, List.map_append]
            simp
          rw [hlast, List.range_succ, List.map_append]
          simp [rungVal]
        rw [hstep, show a + (t + 1) = (a + 1) + t from by omega]
        exact ih (a + 1) (by omega)
  have h0 : ([1] : List ℕ) = (List.range 1).map (rungVal n) := rfl
  unfold calculate_rungs pyRange
  rw [h0, loop (n - 1) 1 le_rfl, show 1 + (n - 1) = n from by omega]

lemma calculate_rungs_getD {n i : ℕ} (h : 1 ≤ n) (hi : i < n) :
    (calculate_rungs n).getD i 0 = rungVal n i := by
  rw [calculate_rungs_eq h]
  rw [List.getD_eq_getElem _ _ (by simpa using hi)]
  simp

/-- Claim C7: for every `n ≥ 1`, `calculate_rungs n` has exactly `n` entries, is
strictly increasing, starts at `1`, and satisfies the recurrence
`rungs[i] = rungs[i-1] + 2*(n-i) + 1` for `1 ≤ i ≤ n-1`. -/
theorem calculate_rungs_spec (n : ℕ) (h : 1 ≤ n) :
    (calculate_rungs n).length = n ∧
    (calculate_rungs n).getD 0 0 = 1 ∧
    List.Sorted (· < ·) (calculate_rungs n) ∧
    ∀ i, 1 ≤ i → i ≤ n - 1 →
      (calculate_rungs n).getD i 0 =
        (calculate_rungs n).getD (i - 1) 0 + 2 * (n - i) + 1 := by
  refine ⟨?_, ?_, ?_, ?_⟩
  · rw [calculate_rungs_eq h]; simp
  · rw [calculate_rungs_getD h (by omega)]; rfl
  · rw [calculate_rungs_eq h]
    exact List.Pairwise.map _ (fun a b hab => rungVal_strictMono n hab)
      (List.pairwise_lt_range n)
  · intro i h1 h2
    rw [calculate_rungs_getD h (by omega), calculate_rungs_getD h (by omega)]
    obtain ⟨j, rfl⟩ : ∃ j, i = j + 1 := ⟨i - 1, by omega⟩
    simp [rungVal]

/-- Witness for C7 at `n = 4`. -/
theorem calculate_rungs_spec_witness :
    1 ≤ 4 ∧
    ((calculate_rungs 4).length = 4 ∧
      (calculate_rungs 4).getD 0 0 = 1 ∧
      List.Sorted (· < ·) (calculate_rungs 4) ∧
      ∀ i, 1 ≤ i → i ≤ 4 - 1 →
        (calculate_rungs 4).getD i 0 =
          (calculate_rungs 4).getD (i - 1) 0 + 2 * (4 - i) + 1) :=
  ⟨by decide, calculate_rungs_spec 4 (by decide)⟩

/-! ### Association-list (dict) lookup helpers -/

lemma lookup_cons_self {β : Type} (a : ℕ) (b : β) (l : List (ℕ × β)) :
    ((a, b) :: l).lookup a = some b := by
  simp [List.lookup]

lemma lookup_cons_ne {β : Type} {k a : ℕ} (b : β) (l : List (ℕ × β)) (h : k ≠ a) :
    ((a, b) :: l).lookup k = l.lookup k := by
  simp [List.lookup, beq_eq_false_iff_ne.mpr h]

/-! ### C1: the selfish best-response step -/

/-- Claim C1: in `simulate_network` the selfish phase folds over players `1..n` in
strictly ascending rank order, skips coalition members, and a non-member
deviates (route 1, both rails bumped on segments `1..player-1`) exactly when
`deviation_cost < original_cost`, where `deviation_cost` is the sum of
`left[seg]+1` plus the sum of `right[seg]+1` over `1..player-1` plus
`rungs[0]`, and `original_cost = rungs[player-1]`; ties keep the player on
their own rung. -/
theorem selfish_best_response (n : ℕ) (coalition : List ℕ) (choices : List Bool)
    (rungs : List ℕ) (st : SimState) (player : ℕ) (h : player ∉ coalition) :
    (devCost st rungs player =
        ((pyRange 1 player).map (fun s => st.left s + 1)).sum +
          ((pyRange 1 player).map (fun s => st.right s + 1)).sum + rungs.getD 0 0) ∧
    (devCost st rungs player < rungs.getD (player - 1) 0 →
      selfishStep coalition rungs st player =
        ⟨bump st.left player, bump st.right player, (player, 1) :: st.routes⟩) ∧
    (¬ devCost st rungs player < rungs.getD (player - 1) 0 →
      selfishStep coalition rungs st player =
        ⟨st.left, st.right, (player, player) :: st.routes⟩) ∧
    (∀ q ∈ coalition, selfishStep coalition rungs st q = st) ∧
    List.Pairwise (· < ·) (pyRange 1 (n + 1)) ∧
    finalState n coalition choices rungs =
      (pyRange 1 (n + 1)).foldl (selfishStep coalition rungs)
        ((coalition.zip choices).foldl coalitionStep initState) := by
  refine ⟨rfl, ?_, ?_, ?_, ?_, rfl⟩
  · intro hlt
    unfold selfishStep
    rw [if_neg h, if_pos hlt]
  · intro hge
    unfold selfishStep
    rw [if_neg h, if_neg hge]
  · intro q hq
    unfold selfishStep
    rw [if_pos hq]
  · unfold pyRange
    exact List.pairwise_lt_range' 1 (n + 1 - 1) 1 (Nat.le_refl 1)

/-- Witness for C1: player 2 outside the coalition `[3, 4]` at the fresh state
deviates, since its deviation cost `3` is below its rung cost `8`. -/
theorem selfish_best_response_witness :
    (2 ∉ ([3, 4] : List ℕ)) ∧
    selfishStep [3, 4] (calculate_rungs 4) initState 2 =
      ⟨bump initState.left 2, bump initState.right 2, (2, 1) :: initState.routes⟩ :=
  ⟨by decide,
    (selfish_best_response 4 [3, 4] [false, false] (calculate_rungs 4) initState 2
      (by decide)).2.1 (by decide)⟩

/-! ### C3: the cost tally -/

/-- Claim C3: after the routing phases, a player routed on their own rank pays
`rungs[player-1]`; a player routed elsewhere pays the sum of the final left
counters plus the sum of the final right counters over `range(route, player)`
plus `rungs[route-1]`; `system_cost` is the sum of all `n` individual costs
and `coalition_cost` is the sub-sum over exactly the `k` coalition members. -/
theorem cost_tally_spec (n k : ℕ) (coalition : List ℕ) (choices : List Bool)
    (rungs : List ℕ) :
    (∀ p, (finalState n coalition choices rungs).routes.lookup p = some p →
      individualCost (finalState n coalition choices rungs) rungs p =
        rungs.getD (p - 1) 0) ∧
    (∀ p r, (finalState n coalition choices rungs).routes.lookup p = some r →
      r ≠ p →
      individualCost (finalState n coalition choices rungs) rungs p =
        ((pyRange r p).map (finalState n coalition choices rungs).left).sum +
          ((pyRange r p).map (finalState n coalition choices rungs).right).sum +
          rungs.getD (r - 1) 0) ∧
    (simulate_network n coalition choices rungs).2.2.2 =
      (pyRange 1 (n + 1)).map
        (fun p => (p, individualCost (finalState n coalition choices rungs) rungs p)) ∧
    (simulate_network n coalition choices rungs).1 =
      ((pyRange 1 (n + 1)).map
        (fun p => individualCost (finalState n coalition choices rungs) rungs p)).sum ∧
    (simulate_network n coalition choices rungs).2.1 =
      (coalition.map
        (fun p => individualCost (finalState n coalition choices rungs) rungs p)).sum ∧
    (k ≤ n → coalition = coalitionOf n k → coalition.length = k) := by
  refine ⟨?_, ?_, rfl, ?_, rfl, ?_⟩
  · intro p hp
    simp [individualCost, hp]
  · intro p r hp hr
    simp [individualCost, hp, hr]
  · show ((List.map _ _).map Prod.snd).sum = _
    rw [List.map_map]
    rfl
  · intro hk hco
    rw [hco]
    unfold coalitionOf
    rw [pyRange_length]
    omega

/-- Witness for C3 at `n = 4`, `k = 2`, coalition `[3, 4]`, choices
`[false, true]`: player 4 deviated to rung 1 and pays the settled rail sums. -/
theorem cost_tally_spec_witness :
    (finalState 4 [3, 4] [false, true] (calculate_rungs 4)).routes.lookup 4 = some 1 ∧
    individualCost (finalState 4 [3, 4] [false, true] (calculate_rungs 4))
        (calculate_rungs 4) 4 =
      ((pyRange 1 4).map (finalState 4 [3, 4] [false, true] (calculate_rungs 4)).left).sum +
        ((pyRange 1 4).map
          (finalState 4 [3, 4] [false, true] (calculate_rungs 4)).right).sum +
        (calculate_rungs 4).getD 0 0 :=
  ⟨by decide,
    (cost_tally_spec 4 2 [3, 4] [false, true] (calculate_rungs 4)).2.1 4 1
      (by decide) (by decide)⟩

/-! ### C8: purity and determinism of the simulator -/

/-- Claim C8: `simulate_network` is a pure function of its four arguments — equal
inputs give equal outputs — and every run starts from the freshly created
all-zero congestion counters and empty route map of `initState`. -/
theorem simulate_network_pure (n1 n2 : ℕ) (c1 c2 : List ℕ) (ch1 ch2 : List Bool)
    (r1 r2 : List ℕ) (hn : n1 = n2) (hc : c1 = c2) (hch : ch1 = ch2)
    (hr : r1 = r2) :
    simulate_network n1 c1 ch1 r1 = simulate_network n2 c2 ch2 r2 ∧
    initState.left = (fun _ => 0) ∧
    initState.right = (fun _ => 0) ∧
    initState.routes = [] ∧
    finalState n1 c1 ch1 r1 =
      (pyRange 1 (n1 + 1)).foldl (selfishStep c1 r1)
        ((c1.zip ch1).foldl coalitionStep initState) := by
  subst hn hc hch hr
  exact ⟨rfl, rfl, rfl, rfl, rfl⟩

/-- Witness for C8 at a concrete input. -/
theorem simulate_network_pure_witness :
    simulate_network 4 [3, 4] [false, true] (calculate_rungs 4) =
      simulate_network 4 [3, 4] [false, true] (calculate_rungs 4) :=
  (simulate_network_pure 4 4 [3, 4] [3, 4] [false, true] [false, true]
    (calculate_rungs 4) (calculate_rungs 4) rfl rfl rfl rfl).1

/-! ### C9: the two rails always agree -/

lemma foldl_inv {α σ : Type} (P : σ → Prop) (f : σ → α → σ)
    (hf : ∀ s a, P s → P (f s a)) :
    ∀ (l : List α) (s : σ), P s → P (l.foldl f s) := by
  intro l
  induction l with
  | nil => intro s hs; exact hs
  | cons x xs ih => intro s hs; exact ih (f s x) (hf s x hs)

lemma coalitionStep_rails {st : SimState} (h : ∀ seg, st.left seg = st.right seg)
    (pc : ℕ × Bool) : ∀ seg, (coalitionStep st pc).left seg =
      (coalitionStep st pc).right seg := by
  intro seg
  by_cases hc : pc.2 <;> simp [coalitionStep, hc, bump, h seg]

lemma selfishStep_rails (coalition : List ℕ) (rungs : List ℕ) {st : SimState}
    (h : ∀ seg, st.left seg = st.right seg) (p : ℕ) :
    ∀ seg, (selfishStep coalition rungs st p).left seg =
      (selfishStep coalition rungs st p).right seg := by
  intro seg
  by_cases hm : p ∈ coalition
  · unfold selfishStep
    rw [if_pos hm]
    exact h seg
  · unfold selfishStep
    rw [if_neg hm]
    by_cases hd : devCost st rungs p < rungs.getD (p - 1) 0
    · rw [if_pos hd]
      simp [bump, h seg]
    · rw [if_neg hd]
      exact h seg

/-- Claim C9: both rails start at zero, every routing step increments them together,
so at every reachable state — the initial one, after any coalition or selfish
step starting from an agreeing state, and in the final state — the left and
right counters agree on every segment; consequently the two rail sums inside
every deviation cost and every tallied top-route cost coincide. -/
theorem rails_invariant (n : ℕ) (coalition : List ℕ) (choices : List Bool)
    (rungs : List ℕ) :
    (∀ seg, initState.left seg = initState.right seg) ∧
    (∀ st : SimState, ∀ pc : ℕ × Bool, (∀ seg, st.left seg = st.right seg) →
      ∀ seg, (coalitionStep st pc).left seg = (coalitionStep st pc).right seg) ∧
    (∀ st : SimState, ∀ p : ℕ, (∀ seg, st.left seg = st.right seg) →
      ∀ seg, (selfishStep coalition rungs st p).left seg =
        (selfishStep coalition rungs st p).right seg) ∧
    (∀ seg, (finalState n coalition choices rungs).left seg =
      (finalState n coalition choices rungs).right seg) ∧
    (∀ st : SimState, ∀ p : ℕ, (∀ seg, st.left seg = st.right seg) →
      ((pyRange 1 p).map (fun s => st.left s + 1)).sum =
        ((pyRange 1 p).map (fun s => st.right s + 1)).sum) ∧
    (∀ st : SimState, ∀ r p : ℕ, (∀ seg, st.left seg = st.right seg) →
      ((pyRange r p).map st.left).sum = ((pyRange r p).map st.right).sum) := by
  refine ⟨fun _ => rfl, fun st pc h => coalitionStep_rails h pc,
    fun st p h => selfishStep_rails coalition rungs h p, ?_, ?_, ?_⟩
  · unfold finalState
    apply foldl_inv (fun st : SimState => ∀ seg, st.left seg = st.right seg)
      (selfishStep coalition rungs)
      (fun st p h => selfishStep_rails coalition rungs h p)
    apply foldl_inv (fun st : SimState => ∀ seg, st.left seg = st.right seg)
      coalitionStep (fun st pc h => coalitionStep_rails h pc)
    exact fun _ => rfl
  · intro st p h
    congr 1
    exact List.map_congr_left fun s _ => by rw [h s]
  · intro st r p h
    congr 1
    exact List.map_congr_left fun s _ => h s

/-- Witness for C9: in the final state of a concrete run the two rails agree
on segment 1. -/
theorem rails_invariant_witness :
    (finalState 4 [3, 4] [false, true] (calculate_rungs 4)).left 1 =
      (finalState 4 [3, 4] [false, true] (calculate_rungs 4)).right 1 :=
  (rails_invariant 4 [3, 4] [false, true] (calculate_rungs 4)).2.2.2.1 1

/-! ### C5: the all-stay strategy -/

lemma coalition_fold_all_false (l : List (ℕ × Bool)) :
    (∀ pc ∈ l, pc.2 = false) → ∀ st : SimState,
      (l.foldl coalitionStep st).left = st.left ∧
      (l.foldl coalitionStep st).right = st.right ∧
      ∀ p : ℕ, (l.foldl coalitionStep st).routes.lookup p =
        if p ∈ l.map Prod.fst then some p else st.routes.lookup p := by
  induction l with
  | nil =>
      intro _ st
      exact ⟨rfl, rfl, fun p => by simp⟩
  | cons x xs ih =>
      intro hl st
      obtain ⟨q, b⟩ := x
      have hb : b = false := hl (q, b) (by simp)
      subst hb
      have hstep : coalitionStep st (q, false) =
          ⟨st.left, st.right, (q, q) :: st.routes⟩ := by
        simp [coalitionStep]
      rw [List.foldl_cons, hstep]
      obtain ⟨hL, hR, hlook⟩ :=
        ih (fun pc hpc => hl pc (by simp [hpc]))
          ⟨st.left, st.right, (q, q) :: st.routes⟩
      refine ⟨hL, hR, fun p => ?_⟩
      rw [hlook p]
      by_cases hmem : p ∈ xs.map Prod.fst
      · simp [hmem]
      · by_cases hpq : p = q
        · subst hpq
          simp [hmem, lookup_cons_self]
        · simp only [hmem, if_false]
          rw [lookup_cons_ne _ _ hpq]
          simp [hmem, hpq]

lemma selfish_fold_member_lookup (coalition rungs : List ℕ) :
    ∀ (l : List ℕ) (st : SimState) (p : ℕ), p ∈ coalition →
      (l.foldl (selfishStep coalition rungs) st).routes.lookup p =
        st.routes.lookup p := by
  intro l
  induction l with
  | nil => intro st p _; rfl
  | cons x xs ih =>
      intro st p hp
      rw [List.foldl_cons, ih _ p hp]
      by_cases hx : x ∈ coalition
      · unfold selfishStep
        rw [if_pos hx]
      · have hne : p ≠ x := fun hh => hx (hh ▸ hp)
        unfold selfishStep
        rw [if_neg hx]
        by_cases hd : devCost st rungs x < rungs.getD (x - 1) 0
        · rw [if_pos hd]
          exact lookup_cons_ne _ _ hne
        · rw [if_neg hd]
          exact lookup_cons_ne _ _ hne

lemma lookup_map_pair (f : ℕ → ℕ) :
    ∀ (l : List ℕ) (p : ℕ), p ∈ l →
      (l.map (fun q => (q, f q))).lookup p = some (f p) := by
  intro l
  induction l with
  | nil => intro p hp; cases hp
  | cons x xs ih =>
      intro p hp
      rw [List.map_cons]
      by_cases hpx : p = x
      · subst hpx
        exact lookup_cons_self p (f p) _
      · rw [lookup_cons_ne _ _ hpx]
        exact ih p (by rcases List.mem_cons.mp hp with h | h; exact absurd h hpx; exact h)

/-- Amended C5: under an all-`False` (all-stay) strategy, every coalition
member `p` with `1 ≤ p ≤ n` is routed on their own rank and their tallied
individual cost is `rungs[p-1]`.  (The original claim over every player
`1..n` is refuted by `all_stay_routes_cex`: selfish non-members still
best-respond and may deviate.) -/
theorem all_stay_member_routes (n : ℕ) (coalition : List ℕ) (choices : List Bool)
    (rungs : List ℕ) (hlen : coalition.length ≤ choices.length)
    (hfalse : ∀ b ∈ choices, b = false) (p : ℕ) (hp : p ∈ coalition)
    (hp1 : 1 ≤ p) (hpn : p ≤ n) :
    (simulate_network n coalition choices rungs).2.2.1.lookup p = some p ∧
    individualCost (finalState n coalition choices rungs) rungs p =
      rungs.getD (p - 1) 0 ∧
    (simulate_network n coalition choices rungs).2.2.2.lookup p =
      some (rungs.getD (p - 1) 0) := by
  have hzip : ∀ pc ∈ coalition.zip choices, pc.2 = false := by
    intro pc hpc
    exact hfalse pc.2 (List.of_mem_zip hpc).2
  have hkeys : (coalition.zip choices).map Prod.fst = coalition :=
    List.map_fst_zip coalition choices hlen
  have hroute : (finalState n coalition choices rungs).routes.lookup p = some p := by
    unfold finalState
    rw [selfish_fold_member_lookup coalition rungs _ _ p hp]
    obtain ⟨-, -, hlook⟩ := coalition_fold_all_false (coalition.zip choices) hzip initState
    rw [hlook p, hkeys, if_pos hp]
  have hcost : individualCost (finalState n coalition choices rungs) rungs p =
      rungs.getD (p - 1) 0 := by
    simp [individualCost, hroute]
  refine ⟨hroute, hcost, ?_⟩
  show ((pyRange 1 (n + 1)).map
    (fun q => (q, individualCost (finalState n coalition choices rungs) rungs q))).lookup
      p = _
  rw [lookup_map_pair _ _ p (mem_pyRange.mpr ⟨hp1, by omega⟩), hcost]

/-- Counterexample to C5 as stated: at `n = 4` with coalition `[3, 4]` and the
all-stay strategy, selfish player 2 deviates to rung 1, so `routes[2] ≠ 2`. -/
theorem all_stay_routes_cex :
    (simulate_network 4 [3, 4] [false, false] (calculate_rungs 4)).2.2.1.lookup 2 ≠
      some 2 := by decide

/-- Witness for the amended C5 at `n = 4`, coalition `[3, 4]`, member `p = 3`. -/
theorem all_stay_member_routes_witness :
    (∀ b ∈ [false, false], b = false) ∧
    ((simulate_network 4 [3, 4] [false, false] (calculate_rungs 4)).2.2.1.lookup 3 =
        some 3 ∧
      individualCost (finalState 4 [3, 4] [false, false] (calculate_rungs 4))
          (calculate_rungs 4) 3 = (calculate_rungs 4).getD 2 0 ∧
      (simulate_network 4 [3, 4] [false, false] (calculate_rungs 4)).2.2.2.lookup 3 =
        some ((calculate_rungs 4).getD 2 0)) :=
  ⟨by decide,
    all_stay_member_routes 4 [3, 4] [false, false] (calculate_rungs 4)
      (by decide) (by decide) 3 (by decide) (by decide) (by decide)⟩

/-! ### The strategy search: enumeration order and the lexicographic minimum -/

lemma lexLt_irrefl (a : ℕ × ℕ) : ¬ lexLt a a := by
  obtain ⟨a1, a2⟩ := a
  simp [lexLt]

lemma lexLt_trans {a b c : ℕ × ℕ} (h1 : lexLt a b) (h2 : lexLt b c) : lexLt a c := by
  obtain ⟨a1, a2⟩ := a
  obtain ⟨b1, b2⟩ := b
  obtain ⟨c1, c2⟩ := c
  simp only [lexLt] at h1 h2 ⊢
  omega

lemma lexLt_total (a b : ℕ × ℕ) : lexLt a b ∨ a = b ∨ lexLt b a := by
  obtain ⟨a1, a2⟩ := a
  obtain ⟨b1, b2⟩ := b
  simp only [lexLt, Prod.mk.injEq]
  omega

lemma not_lexLt_fst_le {a b : ℕ × ℕ} (h : ¬ lexLt a b) : b.1 ≤ a.1 := by
  obtain ⟨a1, a2⟩ := a
  obtain ⟨b1, b2⟩ := b
  simp only [lexLt] at h
  omega

lemma allChoices_length (k : ℕ) : (allChoices k).length = 2 ^ k := by
  induction k with
  | zero => rfl
  | succ k ih =>
      simp only [allChoices, List.length_append, List.length_map, ih, pow_succ]
      omega

lemma mem_allChoices {k : ℕ} {bs : List Bool} : bs ∈ allChoices k ↔ bs.length = k := by
  induction k generalizing bs with
  | zero =>
      simp only [allChoices, List.mem_singleton, List.length_eq_zero]
  | succ k ih =>
      simp only [allChoices, List.mem_append, List.mem_map]
      constructor
      · rintro (⟨t, ht, rfl⟩ | ⟨t, ht, rfl⟩) <;> simp [ih.mp ht]
      · intro hlen
        cases bs with
        | nil => simp at hlen
        | cons b t =>
            have ht : t.length = k := by simpa using hlen
            cases b
            · exact Or.inr ⟨t, ih.mpr ht, rfl⟩
            · exact Or.inl ⟨t, ih.mpr ht, rfl⟩

lemma allChoices_ne_nil (k : ℕ) : allChoices k ≠ [] := by
  intro h
  have h2 := allChoices_length k
  rw [h] at h2
  have h3 : (0 : ℕ) < 2 ^ k := pow_pos (by omega) k
  simp only [List.length_nil] at h2
  omega

/-- The strategy kept by the loop after starting from incumbent `cur` and
scanning `l` in order: a later candidate takes over only when strictly
lexicographically better. -/
def firstMinFrom (f : List Bool → ℕ × ℕ) (cur : List Bool) :
    List (List Bool) → List Bool
  | [] => cur
  | x :: xs => if lexLt (f x) (f cur) then firstMinFrom f x xs else firstMinFrom f cur xs

lemma firstMinFrom_nil (f : List Bool → ℕ × ℕ) (cur : List Bool) :
    firstMinFrom f cur [] = cur := rfl

lemma firstMinFrom_cons (f : List Bool → ℕ × ℕ) (cur x : List Bool)
    (xs : List (List Bool)) :
    firstMinFrom f cur (x :: xs) =
      if lexLt (f x) (f cur) then firstMinFrom f x xs else firstMinFrom f cur xs := rfl

lemma firstMinFrom_spec (f : List Bool → ℕ × ℕ) :
    ∀ (l : List (List Bool)) (cur : List Bool),
      (∀ ch ∈ cur :: l, ¬ lexLt (f ch) (f (firstMinFrom f cur l))) ∧
      ∃ pre post, cur :: l = pre ++ firstMinFrom f cur l :: post ∧
        ∀ ch ∈ pre, lexLt (f (firstMinFrom f cur l)) (f ch) := by
  intro l
  induction l with
  | nil =>
      intro cur
      refine ⟨?_, [], [], rfl, by simp⟩
      intro ch hch
      rw [List.mem_singleton.mp hch]
      exact lexLt_irrefl _
  | cons x xs ih =>
      intro cur
      by_cases hd : lexLt (f x) (f cur)
      · have hr : firstMinFrom f cur (x :: xs) = firstMinFrom f x xs := by
          rw [firstMinFrom_cons, if_pos hd]
        obtain ⟨hmin, pre, post, hsplit, hpre⟩ := ih x
        rw [hr]
        constructor
        · intro ch hch
          rcases List.mem_cons.mp hch with rfl | hch2
          · intro hcon
            exact hmin x (by simp) (lexLt_trans hd hcon)
          · exact hmin ch hch2
        · refine ⟨cur :: pre, post, by rw [List.cons_append, ← hsplit], ?_⟩
          intro ch hch
          rcases List.mem_cons.mp hch with rfl | hch2
          · cases pre with
            | nil =>
                have hx : x = firstMinFrom f x xs := List.head_eq_of_cons_eq hsplit
                rw [← hx]
                exact hd
            | cons p ps =>
                have hx : x = p := List.head_eq_of_cons_eq hsplit
                have hp : lexLt (f (firstMinFrom f x xs)) (f p) := hpre p (by simp)
                exact lexLt_trans (hx ▸ hp) hd
          · exact hpre ch hch2
      · have hr : firstMinFrom f cur (x :: xs) = firstMinFrom f cur xs := by
          rw [firstMinFrom_cons, if_neg hd]
        obtain ⟨hmin, pre, post, hsplit, hpre⟩ := ih cur
        rw [hr]
        constructor
        · intro ch hch
          rcases List.mem_cons.mp hch with rfl | hch2
          · exact hmin ch (by simp)
          · rcases List.mem_cons.mp hch2 with rfl | hch3
            · intro hcon
              rcases lexLt_total (f ch) (f cur) with h1 | h1 | h1
              · exact hd h1
              · exact hmin cur (by simp) (h1 ▸ hcon)
              · exact hmin cur (by simp) (lexLt_trans h1 hcon)
            · exact hmin ch (by simp [hch3])
        · cases pre with
          | nil =>
              have hc : cur = firstMinFrom f cur xs := List.head_eq_of_cons_eq hsplit
              refine ⟨[], x :: xs, ?_, by simp⟩
              simp only [List.nil_append]
              rw [← hc]
          | cons p ps =>
              have hp : p = cur := (List.head_eq_of_cons_eq hsplit).symm
              have htail : xs = ps ++ firstMinFrom f cur xs :: post :=
                List.tail_eq_of_cons_eq hsplit
              have hrcur : lexLt (f (firstMinFrom f cur xs)) (f cur) := by
                have hh := hpre p (by simp)
                rwa [hp] at hh
              refine ⟨cur :: x :: ps, post, ?_, ?_⟩
              · conv_lhs => rw [htail]
                simp
              · intro ch hch
                rcases List.mem_cons.mp hch with rfl | hch2
                · exact hrcur
                · rcases List.mem_cons.mp hch2 with rfl | hch3
                  · rcases lexLt_total (f ch) (f cur) with h1 | h1 | h1
                    · exact absurd h1 hd
                    · rw [← h1] at hrcur
                      exact hrcur
                    · exact lexLt_trans hrcur h1
                  · refine hpre ch ?_
                    rw [hp]
                    exact List.mem_cons_of_mem cur hch3

lemma searchStep_eq (n : ℕ) (co rungs : List ℕ) (b ch : List Bool) :
    searchStep n co rungs (some (mkRec n co rungs b)) ch =
      some (mkRec n co rungs
        (if lexLt (costPair n co rungs ch) (costPair n co rungs b) then ch else b)) := by
  by_cases hd : lexLt (costPair n co rungs ch) (costPair n co rungs b)
  · rw [if_pos hd]
    show (if ((mkRec n co rungs ch).coalitionCost < (mkRec n co rungs b).coalitionCost ∨
        ((mkRec n co rungs ch).coalitionCost = (mkRec n co rungs b).coalitionCost ∧
          (mkRec n co rungs ch).systemCost < (mkRec n co rungs b).systemCost))
      then some (mkRec n co rungs ch) else some (mkRec n co rungs b)) = _
    exact if_pos hd
  · rw [if_neg hd]
    show (if ((mkRec n co rungs ch).coalitionCost < (mkRec n co rungs b).coalitionCost ∨
        ((mkRec n co rungs ch).coalitionCost = (mkRec n co rungs b).coalitionCost ∧
          (mkRec n co rungs ch).systemCost < (mkRec n co rungs b).systemCost))
      then some (mkRec n co rungs ch) else some (mkRec n co rungs b)) = _
    exact if_neg hd

lemma foldl_searchStep_from (n : ℕ) (co rungs : List ℕ) :
    ∀ (l : List (List Bool)) (cur : List Bool),
      l.foldl (searchStep n co rungs) (some (mkRec n co rungs cur)) =
        some (mkRec n co rungs (firstMinFrom (costPair n co rungs) cur l)) := by
  intro l
  induction l with
  | nil => intro cur; rfl
  | cons x xs ih =>
      intro cur
      rw [List.foldl_cons, searchStep_eq]
      by_cases hd : lexLt (costPair n co rungs x) (costPair n co rungs cur)
      · rw [if_pos hd, ih x, firstMinFrom_cons, if_pos hd]
      · rw [if_neg hd, ih cur, firstMinFrom_cons, if_neg hd]

lemma searchBest_eq (n k : ℕ) (rungs : List ℕ) {c : List Bool}
    {cs : List (List Bool)} (h : allChoices k = c :: cs) :
    searchBest n k rungs = some (mkRec n (coalitionOf n k) rungs
      (firstMinFrom (costPair n (coalitionOf n k) rungs) c cs)) := by
  unfold searchBest
  rw [h, List.foldl_cons]
  exact foldl_searchStep_from n (coalitionOf n k) rungs cs c

/-! ### C2: the search returns the first-encountered lexicographic minimizer -/

/-- Claim C2: for `2 ≤ k ≤ n-1` the search enumerates exactly the `2^k` boolean
tuples of length `k`; a candidate replaces the incumbent iff its coalition
cost is strictly lower or equal with strictly lower system cost; and the
returned record is built by `simulate_network` from the first strategy in
enumeration order achieving the lexicographic minimum of
`(coalition_cost, system_cost)`: no enumerated strategy beats it, and every
strategy enumerated before it is strictly lexicographically worse. -/
theorem search_first_lex_min (n k : ℕ) (rungs : List ℕ) (hk2 : 2 ≤ k)
    (hkn : k ≤ n - 1) :
    (allChoices k).length = 2 ^ k ∧
    (∀ bs : List Bool, bs ∈ allChoices k ↔ bs.length = k) ∧
    (∀ (b : SearchRecord) (ch : List Bool),
      searchStep n (coalitionOf n k) rungs (some b) ch =
        if (mkRec n (coalitionOf n k) rungs ch).coalitionCost < b.coalitionCost ∨
            ((mkRec n (coalitionOf n k) rungs ch).coalitionCost = b.coalitionCost ∧
              (mkRec n (coalitionOf n k) rungs ch).systemCost < b.systemCost)
          then some (mkRec n (coalitionOf n k) rungs ch) else some b) ∧
    ∃ (r : SearchRecord) (pre post : List (List Bool)),
      searchBest n k rungs = some r ∧
      r = mkRec n (coalitionOf n k) rungs r.choices ∧
      allChoices k = pre ++ r.choices :: post ∧
      (∀ ch ∈ allChoices k,
        ¬ lexLt (costPair n (coalitionOf n k) rungs ch)
          (costPair n (coalitionOf n k) rungs r.choices)) ∧
      (∀ ch ∈ pre,
        lexLt (costPair n (coalitionOf n k) rungs r.choices)
          (costPair n (coalitionOf n k) rungs ch)) := by
  refine ⟨allChoices_length k, fun bs => mem_allChoices, fun b ch => rfl, ?_⟩
  obtain ⟨c, cs, hcs⟩ : ∃ c cs, allChoices k = c :: cs := by
    cases h : allChoices k with
    | nil => exact absurd h (allChoices_ne_nil k)
    | cons c cs => exact ⟨c, cs, rfl⟩
  obtain ⟨hmin, pre, post, hsplit, hpre⟩ :=
    firstMinFrom_spec (costPair n (coalitionOf n k) rungs) cs c
  refine ⟨mkRec n (coalitionOf n k) rungs
      (firstMinFrom (costPair n (coalitionOf n k) rungs) c cs), pre, post,
    searchBest_eq n k rungs hcs, rfl, ?_, ?_, ?_⟩
  · rw [hcs, hsplit]
    rfl
  · intro ch hch
    rw [hcs] at hch
    exact hmin ch hch
  · exact hpre

/-- Witness for C2 at `n = 4`, `k = 2`. -/
theorem search_first_lex_min_witness :
    2 ≤ 2 ∧ 2 ≤ 4 - 1 ∧
    ((allChoices 2).length = 2 ^ 2 ∧
      (∀ bs : List Bool, bs ∈ allChoices 2 ↔ bs.length = 2) ∧
      (∀ (b : SearchRecord) (ch : List Bool),
        searchStep 4 (coalitionOf 4 2) (calculate_rungs 4) (some b) ch =
          if (mkRec 4 (coalitionOf 4 2) (calculate_rungs 4) ch).coalitionCost <
                b.coalitionCost ∨
              ((mkRec 4 (coalitionOf 4 2) (calculate_rungs 4) ch).coalitionCost =
                  b.coalitionCost ∧
                (mkRec 4 (coalitionOf 4 2) (calculate_rungs 4) ch).systemCost <
                  b.systemCost)
            then some (mkRec 4 (coalitionOf 4 2) (calculate_rungs 4) ch) else some b) ∧
      ∃ (r : SearchRecord) (pre post : List (List Bool)),
        searchBest 4 2 (calculate_rungs 4) = some r ∧
        r = mkRec 4 (coalitionOf 4 2) (calculate_rungs 4) r.choices ∧
        allChoices 2 = pre ++ r.choices :: post ∧
        (∀ ch ∈ allChoices 2,
          ¬ lexLt (costPair 4 (coalitionOf 4 2) (calculate_rungs 4) ch)
            (costPair 4 (coalitionOf 4 2) (calculate_rungs 4) r.choices)) ∧
        (∀ ch ∈ pre,
          lexLt (costPair 4 (coalitionOf 4 2) (calculate_rungs 4) r.choices)
            (costPair 4 (coalitionOf 4 2) (calculate_rungs 4) ch))) :=
  ⟨by decide, by decide, search_first_lex_min 4 2 (calculate_rungs 4) (by decide) (by decide)⟩

/-! ### C6: the search result is at most the all-stay coalition cost -/

/-- Claim C6: for `2 ≤ k ≤ n-1`, the coalition cost returned by the search is at
most the coalition cost of the all-stay strategy (every member on their own
rung), since the all-`False` tuple is one of the enumerated candidates. -/
theorem search_le_all_stay (n k : ℕ) (rungs : List ℕ) (hk2 : 2 ≤ k)
    (hkn : k ≤ n - 1) :
    ∃ r : SearchRecord, searchBest n k rungs = some r ∧
      r.coalitionCost ≤
        (simulate_network n (coalitionOf n k) (List.replicate k false) rungs).2.1 := by
  obtain ⟨c, cs, hcs⟩ : ∃ c cs, allChoices k = c :: cs := by
    cases h : allChoices k with
    | nil => exact absurd h (allChoices_ne_nil k)
    | cons c cs => exact ⟨c, cs, rfl⟩
  obtain ⟨hmin, -, -, -, -⟩ :=
    firstMinFrom_spec (costPair n (coalitionOf n k) rungs) cs c
  refine ⟨mkRec n (coalitionOf n k) rungs
      (firstMinFrom (costPair n (coalitionOf n k) rungs) c cs),
    searchBest_eq n k rungs hcs, ?_⟩
  have hmem : List.replicate k false ∈ c :: cs := by
    rw [← hcs]
    exact mem_allChoices.mpr (List.length_replicate k false)
  have hnot := hmin (List.replicate k false) hmem
  exact not_lexLt_fst_le hnot

/-- Witness for C6 at `n = 4`, `k = 2`. -/
theorem search_le_all_stay_witness :
    2 ≤ 2 ∧ 2 ≤ 4 - 1 ∧
    ∃ r : SearchRecord, searchBest 4 2 (calculate_rungs 4) = some r ∧
      r.coalitionCost ≤
        (simulate_network 4 (coalitionOf 4 2) (List.replicate 2 false)
          (calculate_rungs 4)).2.1 :=
  ⟨by decide, by decide, search_le_all_stay 4 2 (calculate_rungs 4) (by decide) (by decide)⟩

/-! ### C10: the stored record is always well-formed -/

lemma lookup_isSome_cons {β : Type} (a p : ℕ) (b : β) (l : List (ℕ × β))
    (h : (l.lookup p).isSome) : (((a, b) :: l).lookup p).isSome := by
  by_cases hpa : p = a
  · subst hpa
    rw [lookup_cons_self]
    rfl
  · rw [lookup_cons_ne _ _ hpa]
    exact h

lemma coalitionStep_lookup_mono (st : SimState) (pc : ℕ × Bool) (p : ℕ)
    (h : (st.routes.lookup p).isSome) :
    (((coalitionStep st pc).routes).lookup p).isSome := by
  by_cases hc : pc.2
  · unfold coalitionStep
    rw [if_pos hc]
    exact lookup_isSome_cons _ _ _ _ h
  · unfold coalitionStep
    rw [if_neg hc]
    exact lookup_isSome_cons _ _ _ _ h

lemma selfishStep_lookup_mono (coalition rungs : List ℕ) (st : SimState) (q p : ℕ)
    (h : (st.routes.lookup p).isSome) :
    (((selfishStep coalition rungs st q).routes).lookup p).isSome := by
  unfold selfishStep
  by_cases hm : q ∈ coalition
  · rw [if_pos hm]
    exact h
  · rw [if_neg hm]
    by_cases hd : devCost st rungs q < rungs.getD (q - 1) 0
    · rw [if_pos hd]
      exact lookup_isSome_cons _ _ _ _ h
    · rw [if_neg hd]
      exact lookup_isSome_cons _ _ _ _ h

lemma phase1_assigns (p : ℕ) :
    ∀ (l : List (ℕ × Bool)) (st : SimState), p ∈ l.map Prod.fst →
      (((l.foldl coalitionStep st).routes).lookup p).isSome := by
  intro l
  induction l with
  | nil => intro st hp; cases hp
  | cons x xs ih =>
      intro st hp
      rw [List.foldl_cons]
      rcases List.mem_cons.mp hp with hp1 | hp2
      · refine foldl_inv (fun s : SimState => ((s.routes).lookup p).isSome)
          coalitionStep (fun s pc h => coalitionStep_lookup_mono s pc p h) xs _ ?_
        subst hp1
        by_cases hc : x.2 <;> unfold coalitionStep
        · rw [if_pos hc]
          rw [lookup_cons_self]
          rfl
        · rw [if_neg hc]
          rw [lookup_cons_self]
          rfl
      · exact ih _ hp2

lemma phase2_assigns (coalition rungs : List ℕ) (p : ℕ) (hp : p ∉ coalition) :
    ∀ (l : List ℕ) (st : SimState), p ∈ l →
      (((l.foldl (selfishStep coalition rungs) st).routes).lookup p).isSome := by
  intro l
  induction l with
  | nil => intro st hpl; cases hpl
  | cons x xs ih =>
      intro st hpl
      rw [List.foldl_cons]
      rcases List.mem_cons.mp hpl with hp1 | hp2
      · refine foldl_inv (fun s : SimState => ((s.routes).lookup p).isSome)
          (selfishStep coalition rungs)
          (fun s q h => selfishStep_lookup_mono coalition rungs s q p h) xs _ ?_
        subst hp1
        unfold selfishStep
        rw [if_neg hp]
        by_cases hd : devCost st rungs p < rungs.getD (p - 1) 0
        · rw [if_pos hd, lookup_cons_self]
          rfl
        · rw [if_neg hd, lookup_cons_self]
          rfl
      · exact ih _ hp2

lemma finalState_covers (n : ℕ) (coalition : List ℕ) (choices : List Bool)
    (rungs : List ℕ) (hlen : coalition.length ≤ choices.length) (p : ℕ)
    (hp1 : 1 ≤ p) (hpn : p ≤ n) :
    (((finalState n coalition choices rungs).routes).lookup p).isSome := by
  unfold finalState
  by_cases hm : p ∈ coalition
  · refine foldl_inv (fun s : SimState => ((s.routes).lookup p).isSome)
      (selfishStep coalition rungs)
      (fun s q h => selfishStep_lookup_mono coalition rungs s q p h) _ _ ?_
    refine phase1_assigns p _ _ ?_
    rw [List.map_fst_zip coalition choices hlen]
    exact hm
  · exact phase2_assigns coalition rungs p hm _ _ (mem_pyRange.mpr ⟨hp1, by omega⟩)

/-- Claim C10: for `n ≥ 3` and `2 ≤ k ≤ n-1` the search over `calculate_rungs n`
always produces a record (the initial infinities are always replaced), whose
routes cover all `n` players and whose strategy map has exactly the `k`
coalition members `n-k+1..n` as keys. -/
theorem search_record_wellformed (n k : ℕ) (h3 : 3 ≤ n) (hk2 : 2 ≤ k)
    (hkn : k ≤ n - 1) :
    ∃ r : SearchRecord, searchBest n k (calculate_rungs n) = some r ∧
      r.choices.length = k ∧
      (∀ p : ℕ, 1 ≤ p → p ≤ n → ((r.routes).lookup p).isSome) ∧
      ((coalitionOf n k).zip r.choices).map Prod.fst = coalitionOf n k ∧
      (coalitionOf n k).length = k := by
  obtain ⟨c, cs, hcs⟩ : ∃ c cs, allChoices k = c :: cs := by
    cases h : allChoices k with
    | nil => exact absurd h (allChoices_ne_nil k)
    | cons c cs => exact ⟨c, cs, rfl⟩
  set m := firstMinFrom (costPair n (coalitionOf n k) (calculate_rungs n)) c cs with hm
  have hmmem : m ∈ allChoices k := by
    obtain ⟨-, pre, post, hsplit, -⟩ :=
      firstMinFrom_spec (costPair n (coalitionOf n k) (calculate_rungs n)) cs c
    rw [hcs, hsplit]
    simp
  have hmlen : m.length = k := mem_allChoices.mp hmmem
  have hcolen : (coalitionOf n k).length = k := by
    unfold coalitionOf
    rw [pyRange_length]
    omega
  have hle : (coalitionOf n k).length ≤ m.length := by
    rw [hcolen, hmlen]
  refine ⟨mkRec n (coalitionOf n k) (calculate_rungs n) m,
    searchBest_eq n k (calculate_rungs n) hcs, hmlen, ?_, ?_, hcolen⟩
  · intro p hp1 hpn
    exact finalState_covers n (coalitionOf n k) m (calculate_rungs n) hle p hp1 hpn
  · exact List.map_fst_zip (coalitionOf n k) m hle

/-- Witness for C10 at `n = 4`, `k = 2`. -/
theorem search_record_wellformed_witness :
    3 ≤ 4 ∧ 2 ≤ 2 ∧ 2 ≤ 4 - 1 ∧
    ∃ r : SearchRecord, searchBest 4 2 (calculate_rungs 4) = some r ∧
      r.choices.length = 2 ∧
      (∀ p : ℕ, 1 ≤ p → p ≤ 4 → ((r.routes).lookup p).isSome) ∧
      ((coalitionOf 4 2).zip r.choices).map Prod.fst = coalitionOf 4 2 ∧
      (coalitionOf 4 2).length = 2 :=
  ⟨by decide, by decide, by decide,
    search_record_wellformed 4 2 (by decide) (by decide) (by decide)⟩

/-! ### C4: all-stay coalition run versus the empty-coalition run -/

lemma devCost_congr {sA sB : SimState} (rungs : List ℕ) (q : ℕ)
    (hL : sA.left = sB.left) (hR : sA.right = sB.right) :
    devCost sA rungs q = devCost sB rungs q := by
  unfold devCost
  rw [hL, hR]

lemma bump_one (f : ℕ → ℕ) : bump f 1 = f := by
  funext seg
  unfold bump
  rw [if_neg (by omega)]

lemma selfish_fold_lookup_not_mem (co rungs : List ℕ) :
    ∀ (l : List ℕ) (st : SimState) (p : ℕ), p ∉ l →
      (l.foldl (selfishStep co rungs) st).routes.lookup p = st.routes.lookup p := by
  intro l
  induction l with
  | nil => intro st p _; rfl
  | cons x xs ih =>
      intro st p hp
      have hpx : p ≠ x := fun h => hp (h ▸ List.mem_cons_self x xs)
      have hpxs : p ∉ xs := fun h => hp (List.mem_cons_of_mem x h)
      rw [List.foldl_cons, ih _ p hpxs]
      unfold selfishStep
      by_cases hm : x ∈ co
      · rw [if_pos hm]
      · rw [if_neg hm]
        by_cases hd : devCost st rungs x < rungs.getD (x - 1) 0
        · rw [if_pos hd]
          exact lookup_cons_ne _ _ hpx
        · rw [if_neg hd]
          exact lookup_cons_ne _ _ hpx

lemma phase2_equiv (C rungs : List ℕ) :
    ∀ (l : List ℕ), l.Nodup →
    ∀ (sA sB : SimState),
      sA.left = sB.left → sA.right = sB.right →
      (∀ p, p ∉ C → sA.routes.lookup p = sB.routes.lookup p) →
      (∀ p ∈ C, sA.routes.lookup p = some p) →
      (∀ p ∈ C, p ∉ l → sB.routes.lookup p = some p) →
      (∀ p ∈ C, p ∈ l →
        (l.foldl (selfishStep ([] : List ℕ) rungs) sB).routes.lookup p = some p) →
      (l.foldl (selfishStep C rungs) sA).left =
          (l.foldl (selfishStep [] rungs) sB).left ∧
        (l.foldl (selfishStep C rungs) sA).right =
          (l.foldl (selfishStep [] rungs) sB).right ∧
        ∀ p, (l.foldl (selfishStep C rungs) sA).routes.lookup p =
          (l.foldl (selfishStep [] rungs) sB).routes.lookup p := by
  intro l
  induction l with
  | nil =>
      intro _ sA sB hL hR hout hinA hinB _
      simp only [List.foldl_nil]
      refine ⟨hL, hR, fun p => ?_⟩
      by_cases hp : p ∈ C
      · rw [hinA p hp, hinB p hp (List.not_mem_nil p)]
      · exact hout p hp
  | cons x xs ih =>
      intro hnd sA sB hL hR hout hinA hinB hfut
      have hxxs : x ∉ xs := (List.nodup_cons.mp hnd).1
      have hndxs : xs.Nodup := (List.nodup_cons.mp hnd).2
      rw [List.foldl_cons, List.foldl_cons]
      by_cases hx : x ∈ C
      · -- the member is skipped on the coalition side and must stay on the
        -- empty-coalition side, by the `hfut` hypothesis about the final run
        have hstepA : selfishStep C rungs sA x = sA := by
          unfold selfishStep
          rw [if_pos hx]
        have hfutx := hfut x hx (List.mem_cons_self x xs)
        rw [List.foldl_cons] at hfutx
        rw [selfish_fold_lookup_not_mem [] rungs xs _ x hxxs] at hfutx
        have hstepB : selfishStep [] rungs sB x =
            ⟨sB.left, sB.right, (x, x) :: sB.routes⟩ := by
          by_cases hd : devCost sB rungs x < rungs.getD (x - 1) 0
          · have hstepB1 : selfishStep [] rungs sB x =
                ⟨bump sB.left x, bump sB.right x, (x, 1) :: sB.routes⟩ := by
              unfold selfishStep
              rw [if_neg (List.not_mem_nil x), if_pos hd]
            have hfx := hfutx
            rw [hstepB1, lookup_cons_self] at hfx
            have hx1 : (1 : ℕ) = x := Option.some.inj hfx
            rw [hstepB1, ← hx1, bump_one, bump_one]
          · unfold selfishStep
            rw [if_neg (List.not_mem_nil x), if_neg hd]
        rw [hstepA, hstepB]
        rw [hstepB] at hfutx
        refine ih hndxs sA ⟨sB.left, sB.right, (x, x) :: sB.routes⟩ hL hR ?_ hinA ?_ ?_
        · intro p hp
          have hpx : p ≠ x := fun h => hp (h ▸ hx)
          rw [lookup_cons_ne _ _ hpx]
          exact hout p hp
        · intro p hp hpxs
          by_cases hpx : p = x
          · subst hpx
            rw [lookup_cons_self]
          · rw [lookup_cons_ne _ _ hpx]
            exact hinB p hp (by simp [List.mem_cons, hpx, hpxs])
        · intro p hp hpxs
          have hfp := hfut p hp (List.mem_cons_of_mem x hpxs)
          rw [List.foldl_cons, hstepB] at hfp
          exact hfp
      · -- a non-member is processed identically on both sides
        have hdc : devCost sA rungs x = devCost sB rungs x := devCost_congr rungs x hL hR
        have hstepA : selfishStep C rungs sA x =
            (if devCost sA rungs x < rungs.getD (x - 1) 0 then
              ⟨bump sA.left x, bump sA.right x, (x, 1) :: sA.routes⟩
            else ⟨sA.left, sA.right, (x, x) :: sA.routes⟩) := by
          unfold selfishStep
          rw [if_neg hx]
        have hstepB : selfishStep [] rungs sB x =
            (if devCost sB rungs x < rungs.getD (x - 1) 0 then
              ⟨bump sB.left x, bump sB.right x, (x, 1) :: sB.routes⟩
            else ⟨sB.left, sB.right, (x, x) :: sB.routes⟩) := by
          unfold selfishStep
          rw [if_neg (List.not_mem_nil x)]
        have hfut2 : ∀ p ∈ C, p ∈ xs →
            (xs.foldl (selfishStep ([] : List ℕ) rungs)
              (selfishStep [] rungs sB x)).routes.lookup p = some p := by
          intro p hp hpxs
          have hfp := hfut p hp (List.mem_cons_of_mem x hpxs)
          rw [List.foldl_cons] at hfp
          exact hfp
        by_cases hd : devCost sA rungs x < rungs.getD (x - 1) 0
        · have hdB : devCost sB rungs x < rungs.getD (x - 1) 0 := hdc ▸ hd
          rw [hstepA, if_pos hd, hstepB, if_pos hdB]
          rw [hstepB, if_pos hdB] at hfut2
          refine ih hndxs _ _ (by rw [hL]) (by rw [hR]) ?_ ?_ ?_ hfut2
          · intro p hp
            by_cases hpx : p = x
            · subst hpx
              rw [lookup_cons_self, lookup_cons_self]
            · rw [lookup_cons_ne _ _ hpx, lookup_cons_ne _ _ hpx]
              exact hout p hp
          · intro p hp
            have hpx : p ≠ x := fun h => hx (h ▸ hp)
            rw [lookup_cons_ne _ _ hpx]
            exact hinA p hp
          · intro p hp hpxs
            have hpx : p ≠ x := fun h => hx (h ▸ hp)
            rw [lookup_cons_ne _ _ hpx]
            exact hinB p hp (by simp [List.mem_cons, hpx, hpxs])
        · have hdB : ¬ devCost sB rungs x < rungs.getD (x - 1) 0 := hdc ▸ hd
          rw [hstepA, if_neg hd, hstepB, if_neg hdB]
          rw [hstepB, if_neg hdB] at hfut2
          refine ih hndxs _ _ hL hR ?_ ?_ ?_ hfut2
          · intro p hp
            by_cases hpx : p = x
            · subst hpx
              rw [lookup_cons_self, lookup_cons_self]
            · rw [lookup_cons_ne _ _ hpx, lookup_cons_ne _ _ hpx]
              exact hout p hp
          · intro p hp
            have hpx : p ≠ x := fun h => hx (h ▸ hp)
            rw [lookup_cons_ne _ _ hpx]
            exact hinA p hp
          · intro p hp hpxs
            have hpx : p ≠ x := fun h => hx (h ▸ hp)
            rw [lookup_cons_ne _ _ hpx]
            exact hinB p hp (by simp [List.mem_cons, hpx, hpxs])

lemma individualCost_congr {sA sB : SimState} (rungs : List ℕ) (p : ℕ)
    (hL : sA.left = sB.left) (hR : sA.right = sB.right)
    (hlook : sA.routes.lookup p = sB.routes.lookup p) :
    individualCost sA rungs p = individualCost sB rungs p := by
  unfold individualCost
  rw [hlook, hL, hR]

/-- Counterexample to C4 as stated: at `n = 4` with the suffix coalition
`[3, 4]` and the all-`False` strategy, the result differs from the
empty-coalition run (members are forced to stay although they would deviate,
and the coalition-cost component is `0` for an empty coalition). -/
theorem all_false_vs_empty_cex :
    simulate_network 4 [3, 4] [false, false] (calculate_rungs 4) ≠
      simulate_network 4 [] [] (calculate_rungs 4) := by decide

/-- Amended C4: with an all-`False` strategy for a coalition of players inside
`1..n`, the run agrees with the empty-coalition (pure selfish best-response)
run in system cost, in the route of every player, and in the individual-cost
table, *provided* every coalition member stays on their own rung in the
empty-coalition run; the coalition-cost components still differ, the
all-`False` run reporting the rung sub-sum of the members where the empty run
reports `0`. -/
theorem all_false_matches_empty (n : ℕ) (coalition : List ℕ) (choices : List Bool)
    (rungs : List ℕ) (hlen : coalition.length ≤ choices.length)
    (hfalse : ∀ b ∈ choices, b = false)
    (hsub : ∀ p ∈ coalition, 1 ≤ p ∧ p ≤ n)
    (hstay : ∀ p ∈ coalition,
      (simulate_network n [] [] rungs).2.2.1.lookup p = some p) :
    (simulate_network n coalition choices rungs).1 =
      (simulate_network n [] [] rungs).1 ∧
    (∀ p, (simulate_network n coalition choices rungs).2.2.1.lookup p =
      (simulate_network n [] [] rungs).2.2.1.lookup p) ∧
    (simulate_network n coalition choices rungs).2.2.2 =
      (simulate_network n [] [] rungs).2.2.2 ∧
    (simulate_network n coalition choices rungs).2.1 =
      (coalition.map (fun p => rungs.getD (p - 1) 0)).sum := by
  have hzip : ∀ pc ∈ coalition.zip choices, pc.2 = false := fun pc hpc =>
    hfalse pc.2 (List.of_mem_zip hpc).2
  have hkeys : (coalition.zip choices).map Prod.fst = coalition :=
    List.map_fst_zip coalition choices hlen
  obtain ⟨hL0, hR0, hlook0⟩ :=
    coalition_fold_all_false (coalition.zip choices) hzip initState
  have hout0 : ∀ p, p ∉ coalition →
      ((coalition.zip choices).foldl coalitionStep initState).routes.lookup p =
        initState.routes.lookup p := by
    intro p hp
    rw [hlook0 p, hkeys, if_neg hp]
  have hinA0 : ∀ p ∈ coalition,
      ((coalition.zip choices).foldl coalitionStep initState).routes.lookup p =
        some p := by
    intro p hp
    rw [hlook0 p, hkeys, if_pos hp]
  have hnd : (pyRange 1 (n + 1)).Nodup := pyRange_nodup 1 (n + 1)
  have hinB0 : ∀ p ∈ coalition, p ∉ pyRange 1 (n + 1) →
      initState.routes.lookup p = some p := by
    intro p hp hnp
    exact absurd (mem_pyRange.mpr ⟨(hsub p hp).1, by
      have := (hsub p hp).2
      omega⟩) hnp
  have hfut : ∀ p ∈ coalition, p ∈ pyRange 1 (n + 1) →
      ((pyRange 1 (n + 1)).foldl (selfishStep ([] : List ℕ) rungs)
        initState).routes.lookup p = some p := by
    intro p hp _
    exact hstay p hp
  obtain ⟨hLf, hRf, hlookf⟩ :=
    phase2_equiv coalition rungs (pyRange 1 (n + 1)) hnd
      ((coalition.zip choices).foldl coalitionStep initState) initState
      hL0 hR0 hout0 hinA0 hinB0 hfut
  have hLfin : (finalState n coalition choices rungs).left =
      (finalState n [] [] rungs).left := hLf
  have hRfin : (finalState n coalition choices rungs).right =
      (finalState n [] [] rungs).right := hRf
  have hlookfin : ∀ p, (finalState n coalition choices rungs).routes.lookup p =
      (finalState n [] [] rungs).routes.lookup p := hlookf
  have hcst : ∀ p, individualCost (finalState n coalition choices rungs) rungs p =
      individualCost (finalState n [] [] rungs) rungs p :=
    fun p => individualCost_congr rungs p hLfin hRfin (hlookfin p)
  have hmap : (pyRange 1 (n + 1)).map
      (fun p => (p, individualCost (finalState n coalition choices rungs) rungs p)) =
      (pyRange 1 (n + 1)).map
        (fun p => (p, individualCost (finalState n [] [] rungs) rungs p)) :=
    List.map_congr_left fun p _ => by rw [hcst p]
  refine ⟨?_, hlookfin, hmap, ?_⟩
  · show (((pyRange 1 (n + 1)).map
        (fun p => (p, individualCost (finalState n coalition choices rungs) rungs p))).map
          Prod.snd).sum =
      (((pyRange 1 (n + 1)).map
        (fun p => (p, individualCost (finalState n [] [] rungs) rungs p))).map
          Prod.snd).sum
    rw [hmap]
  · show (coalition.map
        (fun p => individualCost (finalState n coalition choices rungs) rungs p)).sum = _
    refine congrArg List.sum (List.map_congr_left fun p hp => ?_)
    have hlp : (finalState n coalition choices rungs).routes.lookup p = some p := by
      rw [hlookfin p]
      exact hstay p hp
    simp [individualCost, hlp]

/-- Witness for the amended C4: at `n = 3`, coalition `[2, 3]`, flat rung
costs `[1, 1, 1]`, every player stays even in the empty-coalition run, and
the two runs agree as stated. -/
theorem all_false_matches_empty_witness :
    (∀ p ∈ ([2, 3] : List ℕ),
      (simulate_network 3 [] [] [1, 1, 1]).2.2.1.lookup p = some p) ∧
    ((simulate_network 3 [2, 3] [false, false] [1, 1, 1]).1 =
        (simulate_network 3 [] [] [1, 1, 1]).1 ∧
      (∀ p, (simulate_network 3 [2, 3] [false, false] [1, 1, 1]).2.2.1.lookup p =
        (simulate_network 3 [] [] [1, 1, 1]).2.2.1.lookup p) ∧
      (simulate_network 3 [2, 3] [false, false] [1, 1, 1]).2.2.2 =
        (simulate_network 3 [] [] [1, 1, 1]).2.2.2 ∧
      (simulate_network 3 [2, 3] [false, false] [1, 1, 1]).2.1 =
        (([2, 3] : List ℕ).map (fun p => ([1, 1, 1] : List ℕ).getD (p - 1) 0)).sum) :=
  ⟨by decide,
    all_false_matches_empty 3 [2, 3] [false, false] [1, 1, 1]
      (by decide) (by decide) (by decide) (by decide)⟩

end Temp18
